import Mathlib

/-!
Verification of the gpu_specter projection-matrix core.

The Python source (proj_matrix_gpu.py, proj_matrix_proj_matrix.py) is
shallowly embedded: device buffers become functions `ℕ → ℚ` (or curried
multi-index functions), an element assignment becomes a pointwise
functional update, and each CUDA kernel is modelled per lane — the lanes
write disjoint locations, so sequential composition of the lane bodies is
the standard semantics of the launch.  Machine floats are modelled by `ℚ`;
the two transcendental primitives used by `calc_pgh` (`erf` composed with
division by √2, and the standard normal density) are abstracted as
function parameters, since only the index structure around them is at
stake in the claims.
-/

namespace GpuSpecter

/-- Pointwise update of a one-dimensional buffer: the model of the Python
element assignment `buf[k] = v`. -/
def updF (f : ℕ → ℚ) (k : ℕ) (v : ℚ) : ℕ → ℚ :=
  fun n => if n = k then v else f n

/-- Loop `for j in range(2, deg+1)` of the `legvander` kernel body
(proj_matrix_gpu.py line 46–47), acting on one row of `output_matrix`.
`legLoop x n buf` is the buffer after `n` iterations; iteration `m`
(0-based) executes
`output_matrix[i][j] = (output_matrix[i][j-1]*x[i]*(2*j-1) - output_matrix[i][j-2]*(j-1)) / j`
for `j = m + 2`. -/
def legLoop (x : ℚ) : ℕ → (ℕ → ℚ) → (ℕ → ℚ)
  | 0, buf => buf
  | n+1, buf =>
    let b := legLoop x n buf
    updF b (n+2) ((b (n+1) * x * (2 * ((n : ℚ) + 2) - 1) - b n * (((n : ℚ) + 2) - 1)) / ((n : ℚ) + 2))

/-- One row of the `legvander` CUDA kernel (proj_matrix_gpu.py lines 39–47):
`output_matrix[i][0] = 1`, then — unconditionally, with no guard on `deg` —
`output_matrix[i][1] = x[i]`, then the loop over `j in range(2, deg+1)`,
which performs `deg - 1` iterations (none when `deg ≤ 1`). `buf` is the
uninitialised row of the output buffer. -/
def legvander (x : ℚ) (deg : ℕ) (buf : ℕ → ℚ) : ℕ → ℚ :=
  legLoop x (deg - 1) (updF (updF buf 0 1) 1 x)

/-- Loop `for k in range(2, deg+1)` of the `hermevander` kernel body
(proj_matrix_gpu.py lines 112–113): iteration `m` executes
`output_matrix[i][j][k] = output_matrix[i][j][k-1]*x[i][j] - output_matrix[i][j][k-2]*(k-1)`
for `k = m + 2`. -/
def hermeLoop (x : ℚ) : ℕ → (ℕ → ℚ) → (ℕ → ℚ)
  | 0, buf => buf
  | n+1, buf =>
    let b := hermeLoop x n buf
    updF b (n+2) (b (n+1) * x - b n * ((n : ℚ) + 1))

/-- One lane of the `hermevander` CUDA kernel (proj_matrix_gpu.py lines
103–113): `output_matrix[i][j][0] = 1` always, and only under the guard
`if deg > 0:` the write `output_matrix[i][j][1] = x[i][j]` and the degree
loop. -/
def hermevander (x : ℚ) (deg : ℕ) (buf : ℕ → ℚ) : ℕ → ℚ :=
  if 0 < deg then hermeLoop x (deg - 1) (updF (updF buf 0 1) 1 x)
  else updF buf 0 1

/-- The column indices assigned by one row of the `legvander` kernel, in
program order: line 44 writes column 0, line 45 writes column 1 with no
guard on `deg`, and the loop writes columns `2, …, deg`. -/
def legvanderWrites (deg : ℕ) : List ℕ :=
  0 :: 1 :: List.range' 2 (deg - 1)

/-- The column indices assigned by one lane of the `hermevander` kernel:
column 0 always; columns `1, …, deg` only under the guard `if deg > 0:`
(proj_matrix_gpu.py line 110). -/
def hermevanderWrites (deg : ℕ) : List ℕ :=
  if 0 < deg then 0 :: 1 :: List.range' 2 (deg - 1) else [0]

/-- Closed-form value sequence of the Legendre recurrence, used to relate
the operational loop to the three-term recurrence. -/
def legSeq (x : ℚ) : ℕ → ℚ
  | 0 => 1
  | 1 => x
  | n+2 => (legSeq x (n+1) * x * (2 * ((n : ℚ) + 2) - 1) - legSeq x n * (((n : ℚ) + 2) - 1)) / ((n : ℚ) + 2)

/-- Closed-form value sequence of the probabilist-Hermite recurrence. -/
def hermeSeq (x : ℚ) : ℕ → ℚ
  | 0 => 1
  | 1 => x
  | n+2 => hermeSeq x (n+1) * x - hermeSeq x n * ((n : ℚ) + 1)

theorem legLoop_eq (x : ℚ) (buf : ℕ → ℚ) (hb0 : buf 0 = 1) (hb1 : buf 1 = x) :
    ∀ n k, k ≤ n + 1 → legLoop x n buf k = legSeq x k := by
  intro n
  induction n with
  | zero =>
    intro k hk
    interval_cases k
    · exact hb0
    · exact hb1
  | succ n ih =>
    intro k hk
    rcases Nat.lt_or_ge k (n + 2) with h | h
    · have : legLoop x (n+1) buf k = legLoop x n buf k := by
        simp only [legLoop, updF]
        rw [if_neg (by omega)]
      rw [this, ih k (by omega)]
    · have hk2 : k = n + 2 := by omega
      subst hk2
      simp only [legLoop, updF, if_pos rfl]
      rw [ih (n+1) (by omega), ih n (by omega)]
      rfl

theorem hermeLoop_eq (x : ℚ) (buf : ℕ → ℚ) (hb0 : buf 0 = 1) (hb1 : buf 1 = x) :
    ∀ n k, k ≤ n + 1 → hermeLoop x n buf k = hermeSeq x k := by
  intro n
  induction n with
  | zero =>
    intro k hk
    interval_cases k
    · exact hb0
    · exact hb1
  | succ n ih =>
    intro k hk
    rcases Nat.lt_or_ge k (n + 2) with h | h
    · have : hermeLoop x (n+1) buf k = hermeLoop x n buf k := by
        simp only [hermeLoop, updF]
        rw [if_neg (by omega)]
      rw [this, ih k (by omega)]
    · have hk2 : k = n + 2 := by omega
      subst hk2
      simp only [hermeLoop, updF, if_pos rfl]
      rw [ih (n+1) (by omega), ih n (by omega)]
      rfl

theorem legvander_eq_legSeq (x : ℚ) (deg : ℕ) (buf : ℕ → ℚ) (hdeg : 1 ≤ deg) :
    ∀ k, k ≤ deg → legvander x deg buf k = legSeq x k := by
  intro k hk
  have h0 : (updF (updF buf 0 1) 1 x) 0 = 1 := by simp [updF]
  have h1 : (updF (updF buf 0 1) 1 x) 1 = x := by simp [updF]
  have := legLoop_eq x (updF (updF buf 0 1) 1 x) h0 h1 (deg - 1) k (by omega)
  simpa [legvander] using this

theorem hermevander_eq_hermeSeq (x : ℚ) (deg : ℕ) (buf : ℕ → ℚ) (hdeg : 1 ≤ deg) :
    ∀ k, k ≤ deg → hermevander x deg buf k = hermeSeq x k := by
  intro k hk
  have h0 : (updF (updF buf 0 1) 1 x) 0 = 1 := by simp [updF]
  have h1 : (updF (updF buf 0 1) 1 x) 1 = x := by simp [updF]
  have := hermeLoop_eq x (updF (updF buf 0 1) 1 x) h0 h1 (deg - 1) k (by omega)
  simpa [hermevander, Nat.lt_of_lt_of_le Nat.zero_lt_one hdeg] using this

/-- The C4 property for the Legendre kernel: constant column, linear
column, and the three-term recurrence for every column `2 ≤ k ≤ deg`. -/
def legRecurrenceProp (x : ℚ) (deg : ℕ) (buf : ℕ → ℚ) : Prop :=
  legvander x deg buf 0 = 1 ∧ legvander x deg buf 1 = x ∧
    ∀ k, 2 ≤ k → k ≤ deg →
      legvander x deg buf k =
        (legvander x deg buf (k-1) * x * (2 * (k : ℚ) - 1)
          - legvander x deg buf (k-2) * ((k : ℚ) - 1)) / (k : ℚ)

/-- The C4 property for the probabilist-Hermite kernel. -/
def hermeRecurrenceProp (x : ℚ) (deg : ℕ) (buf : ℕ → ℚ) : Prop :=
  hermevander x deg buf 0 = 1 ∧ hermevander x deg buf 1 = x ∧
    ∀ k, 2 ≤ k → k ≤ deg →
      hermevander x deg buf k =
        hermevander x deg buf (k-1) * x - hermevander x deg buf (k-2) * ((k : ℚ) - 1)

/-- C4: for every sample `x` and degree `deg ≥ 1`, both basis kernels
produce `V[0] = 1`, `V[1] = x`, and each column `2 ≤ k ≤ deg` satisfies
the stated three-term recurrence (Legendre
`V[k] = (V[k-1]·x·(2k-1) − V[k-2]·(k-1))/k`, probabilist Hermite
`V[k] = V[k-1]·x − V[k-2]·(k-1)`), the columns being produced in
increasing-degree order per sample. -/
theorem legvander_hermevander_recurrence (x : ℚ) (deg : ℕ) (bufL bufH : ℕ → ℚ)
    (hdeg : 1 ≤ deg) :
    legRecurrenceProp x deg bufL ∧ hermeRecurrenceProp x deg bufH := by
  constructor
  · refine ⟨?_, ?_, ?_⟩
    · rw [legvander_eq_legSeq x deg bufL hdeg 0 (by omega)]; rfl
    · rw [legvander_eq_legSeq x deg bufL hdeg 1 hdeg]; rfl
    · intro k h2 hdk
      obtain ⟨m, rfl⟩ : ∃ m, k = m + 2 := ⟨k - 2, by omega⟩
      rw [legvander_eq_legSeq x deg bufL hdeg (m+2) hdk,
        legvander_eq_legSeq x deg bufL hdeg (m+2-1) (by omega),
        legvander_eq_legSeq x deg bufL hdeg (m+2-2) (by omega)]
      have e1 : m + 2 - 1 = m + 1 := rfl
      have e2 : m + 2 - 2 = m := rfl
      rw [e1, e2]
      show legSeq x (m+2) = _
      simp only [legSeq]
      push_cast
      ring_nf
  · refine ⟨?_, ?_, ?_⟩
    · rw [hermevander_eq_hermeSeq x deg bufH hdeg 0 (by omega)]; rfl
    · rw [hermevander_eq_hermeSeq x deg bufH hdeg 1 hdeg]; rfl
    · intro k h2 hdk
      obtain ⟨m, rfl⟩ : ∃ m, k = m + 2 := ⟨k - 2, by omega⟩
      rw [hermevander_eq_hermeSeq x deg bufH hdeg (m+2) hdk,
        hermevander_eq_hermeSeq x deg bufH hdeg (m+2-1) (by omega),
        hermevander_eq_hermeSeq x deg bufH hdeg (m+2-2) (by omega)]
      have e1 : m + 2 - 1 = m + 1 := rfl
      have e2 : m + 2 - 2 = m := rfl
      rw [e1, e2]
      show hermeSeq x (m+2) = _
      simp only [hermeSeq]
      push_cast
      ring_nf

/-- Witness for C4 at `x = 2`, `deg = 2`, zero-initialised buffers. -/
theorem legvander_hermevander_recurrence_witness :
    1 ≤ 2 ∧ (legRecurrenceProp 2 2 (fun _ => 0) ∧ hermeRecurrenceProp 2 2 (fun _ => 0)) :=
  ⟨by norm_num, legvander_hermevander_recurrence 2 2 (fun _ => 0) (fun _ => 0) (by norm_num)⟩

/-- C2 (code-bug evidence): at `deg = 0` the `legvander` kernel still
executes `output_matrix[i][1] = x[i]`, so its write set is `[0, 1]` while
the only valid column index of the `deg + 1 = 1`-column output is `0`
(column `1` is out of bounds); `hermevander`, guarded by `if deg > 0:`,
writes only column `0`, sets it to `1`, and leaves every other cell of its
buffer untouched. -/
theorem legvander_deg0_writes_column_one :
    legvanderWrites 0 = [0, 1] ∧ (1 : ℕ) ∉ List.range (0 + 1) ∧
      hermevanderWrites 0 = [0] ∧
      hermevander 3 0 (fun _ => 5) 0 = 1 ∧ hermevander 3 0 (fun _ => 5) 1 = 5 ∧
      legvander 3 0 (fun _ => 5) 1 = 3 := by
  refine ⟨rfl, by decide, rfl, rfl, rfl, rfl⟩

/-- Failure kinds that a loop iteration of `evalcoeffs` can raise: a
Python `ValueError` from `i, j = map(int, name.split('-')[1:3])` (too few
components, or a component that is not an integer literal), or a numpy
`IndexError` from the assignment `p['GH'][i,j] = …` when an index exceeds
the tensor dimension. -/
inductive EvalErr
  | valueError
  | indexError
deriving DecidableEq

/-- Python `name.strip()` on a name given as its character list. -/
def pstrip (s : List Char) : List Char :=
  ((s.dropWhile Char.isWhitespace).reverse.dropWhile Char.isWhitespace).reverse

/-- Python `name.split('-')`: split on every dash, keeping empty
components. -/
def splitDash : List Char → List (List Char)
  | [] => [[]]
  | c :: rest =>
    let r := splitDash rest
    if c = '-' then [] :: r
    else
      match r with
      | [] => [[c]]
      | h :: t => (c :: h) :: t

/-- One decimal digit of a Python `int()` literal. -/
def charDigit? (c : Char) : Option ℕ :=
  if '0' ≤ c ∧ c ≤ '9' then some (c.toNat - '0'.toNat) else none

/-- Python `int()` on a dash-free component: succeeds exactly on a
non-empty all-digit string (a minus sign cannot survive the split on
`-`, so the parsed value is a natural number); otherwise `ValueError`. -/
def parseNat? : List Char → Option ℕ
  | [] => none
  | s => s.foldl (fun acc c =>
      match acc, charDigit? c with
      | some n, some d => some (10 * n + d)
      | _, _ => none) (some 0)

/-- Failure behaviour of one iteration of the `for name, coeff in
zip(psfdata['PARAM'], psfdata['COEFF'])` loop of `evalcoeffs`
(proj_matrix_gpu.py lines 87–94, proj_matrix_proj_matrix.py lines 53–59):
`name = name.strip()`; if it starts with `GH-`, split on `-`, take
components 1 and 2 (fewer than two of them is a `ValueError` from the
unpacking `i, j = …`), parse them as integers (`ValueError` on failure),
and assign into the `(GHDEGX+1) × (GHDEGY+1)` tensor `p['GH']`, which
raises an `IndexError` exactly when `i > GHDEGX` or `j > GHDEGY`. A
non-`GH-` name never fails. -/
def checkName (ghdegx ghdegy : ℕ) (name : List Char) : Option EvalErr :=
  let t := pstrip name
  if t.take 3 = ['G', 'H', '-'] then
    match splitDash t with
    | _ :: a :: b :: _ =>
      match parseNat? a, parseNat? b with
      | some i, some j =>
        if i ≤ ghdegx ∧ j ≤ ghdegy then none else some EvalErr.indexError
      | _, _ => some EvalErr.valueError
    | _ => some EvalErr.valueError
  else none

/-- Error behaviour of `evalcoeffs`: `params` is the list of `PARAM` names
and `ncoeff` the first dimension of the `COEFF` array; `zip` processes only
the first `min params.length ncoeff` rows — a length mismatch is silently
truncated, there is no validation of `nparam` against the number of names —
and the call fails with the first per-row failure, if any. -/
def evalcoeffs (params : List (List Char)) (ncoeff ghdegx ghdegy : ℕ) : Except EvalErr Unit :=
  match (params.take ncoeff).findSome? (checkName ghdegx ghdegy) with
  | some e => Except.error e
  | none => Except.ok ()

/-- C3 counterexample: a calibration table whose `COEFF` array has 2
parameter rows while `PARAM` has a single row (shape mismatch) is
processed by `evalcoeffs` without raising anything, and an out-of-range
`GH-5-0` row fails as a bare index error — the claimed
`MalformedCalibration` failure on a parameter-count mismatch does not
exist in the code. -/
theorem evalcoeffs_count_mismatch_no_error :
    evalcoeffs [['X']] 2 0 0 = Except.ok () ∧ ([['X']] : List (List Char)).length ≠ 2 ∧
      evalcoeffs [['G', 'H', '-', '5', '-', '0']] 1 1 1 = Except.error EvalErr.indexError := by
  have h : (([['X']] : List (List Char)).take 2).findSome? (checkName 0 0) = none := by decide
  have h2 : (([['G', 'H', '-', '5', '-', '0']] : List (List Char)).take 1).findSome?
      (checkName 1 1) = some EvalErr.indexError := by decide
  unfold evalcoeffs
  rw [h, h2]
  exact ⟨rfl, by decide, rfl⟩

/-- C3 amended: `evalcoeffs` performs no parameter-count validation — it
returns successfully precisely when every name actually processed by the
truncating `zip` passes its per-row check (well-formed `GH-i-j` indices in
`[0,GHDEGX]×[0,GHDEGY]`, or a non-GH name); in particular a count mismatch
alone never causes a failure, while an out-of-range GH index pair fails as
an index error, not as a dedicated `MalformedCalibration` condition. -/
theorem evalcoeffs_ok_iff (params : List (List Char)) (ncoeff ghdegx ghdegy : ℕ) :
    evalcoeffs params ncoeff ghdegx ghdegy = Except.ok () ↔
      ∀ name ∈ params.take ncoeff, checkName ghdegx ghdegy name = none := by
  unfold evalcoeffs
  rcases h : (params.take ncoeff).findSome? (checkName ghdegx ghdegy) with _ | e
  · simpa using (List.findSome?_eq_none_iff).1 h
  · simp only [reduceCtorEq, false_iff]
    intro hall
    have := (List.findSome?_eq_none_iff).2 hall
    rw [h] at this
    exact Option.noConfusion this

/-- Where an array value lives: on the host (numpy) or on the device
(cupy). `cp.array` applied to a value yields a fresh device-side copy. -/
inductive Loc
  | host
  | dev
deriving DecidableEq

/-- A dictionary entry value: its location together with its numeric
contents. -/
structure PVal where
  loc : Loc
  data : List ℚ
deriving DecidableEq

/-- The model of `cp.array(v)`: a new device array holding the same
numbers. -/
def cpArray (v : PVal) : PVal := ⟨Loc.dev, v.data⟩

/-- The PSF-parameter dictionary, as an association list in insertion
order like a Python dict. -/
abbrev Dict := List (String × PVal)

/-- Python `d[k] = f(d[k])` on a key already present: rebind that entry in
place, keep every other entry. -/
def updKey (d : Dict) (k : String) (f : PVal → PVal) : Dict :=
  d.map (fun e => if e.1 = k then (e.1, f e.2) else e)

/-- Dictionary effect of the GPU `calc_pgh` (proj_matrix_gpu.py lines
147–148): `p['X'], p['Y'], p['GHSIGX'], p['GHSIGY'] =
cp.array(p['X']), cp.array(p['Y']), cp.array(p['GHSIGX']),
cp.array(p['GHSIGY'])` rebinds those four entries of the caller's
dictionary to device copies; no other statement of the function assigns to
`p`. -/
def calc_pgh_dict_gpu (d : Dict) : Dict :=
  updKey (updKey (updKey (updKey d "X" cpArray) "Y" cpArray) "GHSIGX" cpArray) "GHSIGY" cpArray

/-- Dictionary effect of the CPU-style `calc_pgh`
(proj_matrix_proj_matrix.py lines 68–146): the body only reads
`psfparams` and never assigns to any of its keys. -/
def calc_pgh_dict_cpu (d : Dict) : Dict := d

/-- C7 counterexample: on a dictionary holding a host-side `X`, the GPU
`calc_pgh` returns the dictionary with `X` rebound to a device copy, so
the parameter dictionary does not hold exactly the value it held before
the call. -/
theorem calc_pgh_gpu_rebinds_entries :
    calc_pgh_dict_gpu [("X", ⟨Loc.host, [1]⟩)] ≠ [("X", ⟨Loc.host, [1]⟩)] := by
  decide

theorem updKey_fst (d : Dict) (k : String) (f : PVal → PVal) :
    (updKey d k f).map Prod.fst = d.map Prod.fst := by
  unfold updKey
  rw [List.map_map]
  apply List.map_congr_left
  intro e _
  by_cases h : e.1 = k <;> simp [h]

theorem updKey_data (d : Dict) (k : String) :
    (updKey d k cpArray).map (fun e => (e.1, e.2.data)) = d.map (fun e => (e.1, e.2.data)) := by
  unfold updKey
  rw [List.map_map]
  apply List.map_congr_left
  intro e _
  by_cases h : e.1 = k <;> simp [h, cpArray]

/-- C7 amended: neither `calc_pgh` variant adds or removes a key, and
neither changes any entry's numeric data; the CPU variant leaves the
dictionary entirely untouched, but the GPU variant rebinds the entries
`X`, `Y`, `GHSIGX`, `GHSIGY` to fresh device-array copies, so the
dictionary is not left with exactly the same value objects. -/
theorem calc_pgh_dict_effect (d : Dict) :
    (calc_pgh_dict_gpu d).map Prod.fst = d.map Prod.fst ∧
      (calc_pgh_dict_gpu d).map (fun e => (e.1, e.2.data)) = d.map (fun e => (e.1, e.2.data)) ∧
      calc_pgh_dict_cpu d = d := by
  refine ⟨?_, ?_, rfl⟩
  · unfold calc_pgh_dict_gpu
    rw [updKey_fst, updKey_fst, updKey_fst, updKey_fst]
  · unfold calc_pgh_dict_gpu
    rw [updKey_data, updKey_data, updKey_data, updKey_data]

/-- Pointwise update of a two-dimensional buffer: the model of
`mspots[iy][ix] = v` within one wavelength lane's private region. -/
def upd2 (m : ℕ → ℕ → ℚ) (a b : ℕ) (v : ℚ) : ℕ → ℕ → ℚ :=
  fun a' b' => if a' = a ∧ b' = b then v else m a' b'

/-- Innermost loop `for ix in range(len(px))` of the `multispot` kernel
(proj_matrix_gpu.py line 218–219): iteration `ix` executes
`mspots[iwave, iy, ix] += c * py[iy] * px[ix]`. The `iwave` index is the
lane index and is dropped: each lane owns its own `(ny, nx)` slice. -/
def msLoopIx (c : ℚ) (py px : ℕ → ℚ) (iy : ℕ) : ℕ → (ℕ → ℕ → ℚ) → (ℕ → ℕ → ℚ)
  | 0, m => m
  | n+1, m =>
    let m' := msLoopIx c py px iy n m
    upd2 m' iy n (m' iy n + c * py iy * px n)

/-- Loop `for iy in range(len(py))` of the `multispot` kernel. -/
def msLoopIy (c : ℚ) (py px : ℕ → ℚ) (nx : ℕ) : ℕ → (ℕ → ℕ → ℚ) → (ℕ → ℕ → ℚ)
  | 0, m => m
  | n+1, m => msLoopIx c py px n nx (msLoopIy c py px nx n m)

/-- Loop `for j in range(0, pGHy.shape[0])`: `py = pGHy[j, iwave]`,
`c = ghc[i, j, iwave]`. -/
def msLoopJ (pGHx pGHy ghc : ℕ → ℕ → ℚ) (i ny nx : ℕ) : ℕ → (ℕ → ℕ → ℚ) → (ℕ → ℕ → ℚ)
  | 0, m => m
  | n+1, m => msLoopIy (ghc i n) (pGHy n) (pGHx i) nx ny (msLoopJ pGHx pGHy ghc i ny nx n m)

/-- Loop `for i in range(pGHx.shape[0])`: `px = pGHx[i, iwave]`. -/
def msLoopI (pGHx pGHy ghc : ℕ → ℕ → ℚ) (nGHy ny nx : ℕ) : ℕ → (ℕ → ℕ → ℚ) → (ℕ → ℕ → ℚ)
  | 0, m => m
  | n+1, m => msLoopJ pGHx pGHy ghc n ny nx nGHy (msLoopI pGHx pGHy ghc nGHy ny nx n m)

/-- One wavelength lane of the `multispot` CUDA kernel (proj_matrix_gpu.py
lines 194–219, identically proj_matrix_proj_matrix.py lines 149–174):
starting from the lane's current accumulator slice `mspots`, add
`ghc[i,j] * pGHy[j][iy] * pGHx[i][ix]` into cell `(iy, ix)` for every
degree pair and every pixel. `pGHx i` is the lane's slice `pGHx[i, iwave]`
(length `nx`), `pGHy j` the slice `pGHy[j, iwave]` (length `ny`), and
`nGHx = pGHx.shape[0]`, `nGHy = pGHy.shape[0]`. -/
def multispot (pGHx pGHy ghc : ℕ → ℕ → ℚ) (nGHx nGHy ny nx : ℕ)
    (mspots : ℕ → ℕ → ℚ) : ℕ → ℕ → ℚ :=
  msLoopI pGHx pGHy ghc nGHy ny nx nGHx mspots

theorem msLoopIx_eq (c : ℚ) (py px : ℕ → ℚ) (iy : ℕ) :
    ∀ n (m : ℕ → ℕ → ℚ) (a b : ℕ),
      msLoopIx c py px iy n m a b
        = m a b + (if a = iy ∧ b < n then c * py iy * px b else 0) := by
  intro n
  induction n with
  | zero => intro m a b; simp [msLoopIx]
  | succ n ih =>
    intro m a b
    show upd2 (msLoopIx c py px iy n m) iy n
        (msLoopIx c py px iy n m iy n + c * py iy * px n) a b = _
    unfold upd2
    by_cases h : a = iy ∧ b = n
    · obtain ⟨rfl, rfl⟩ := h
      rw [if_pos ⟨rfl, rfl⟩, ih]
      simp
    · rw [if_neg h, ih]
      have hcond : (a = iy ∧ b < n) ↔ (a = iy ∧ b < n + 1) := by
        constructor
        · exact fun hc => ⟨hc.1, by omega⟩
        · intro hc
          refine ⟨hc.1, ?_⟩
          have hbn : b ≠ n := fun hb => h ⟨hc.1, hb⟩
          omega
      rw [if_congr hcond rfl rfl]

theorem msLoopIy_eq (c : ℚ) (py px : ℕ → ℚ) (nx : ℕ) :
    ∀ n (m : ℕ → ℕ → ℚ) (a b : ℕ),
      msLoopIy c py px nx n m a b
        = m a b + (if a < n ∧ b < nx then c * py a * px b else 0) := by
  intro n
  induction n with
  | zero => intro m a b; simp [msLoopIy]
  | succ n ih =>
    intro m a b
    show msLoopIx c py px n nx (msLoopIy c py px nx n m) a b = _
    rw [msLoopIx_eq, ih]
    have hval : (if a = n ∧ b < nx then c * py n * px b else 0)
        = (if a = n ∧ b < nx then c * py a * px b else 0) := by
      split_ifs with h
      · rw [h.1]
      · rfl
    rw [hval]
    split_ifs <;> first | ring1 | (exfalso; omega)

theorem msLoopJ_eq (pGHx pGHy ghc : ℕ → ℕ → ℚ) (i ny nx : ℕ) :
    ∀ n (m : ℕ → ℕ → ℚ) (a b : ℕ),
      msLoopJ pGHx pGHy ghc i ny nx n m a b
        = m a b + (if a < ny ∧ b < nx then
            ∑ j ∈ Finset.range n, ghc i j * pGHy j a * pGHx i b else 0) := by
  intro n
  induction n with
  | zero => intro m a b; simp [msLoopJ]
  | succ n ih =>
    intro m a b
    show msLoopIy (ghc i n) (pGHy n) (pGHx i) nx ny (msLoopJ pGHx pGHy ghc i ny nx n m) a b = _
    rw [msLoopIy_eq, ih]
    split_ifs with h
    · rw [Finset.sum_range_succ]
      ring
    · ring

theorem msLoopI_eq (pGHx pGHy ghc : ℕ → ℕ → ℚ) (nGHy ny nx : ℕ) :
    ∀ n (m : ℕ → ℕ → ℚ) (a b : ℕ),
      msLoopI pGHx pGHy ghc nGHy ny nx n m a b
        = m a b + (if a < ny ∧ b < nx then
            ∑ i ∈ Finset.range n, ∑ j ∈ Finset.range nGHy,
              ghc i j * pGHy j a * pGHx i b else 0) := by
  intro n
  induction n with
  | zero => intro m a b; simp [msLoopI]
  | succ n ih =>
    intro m a b
    show msLoopJ pGHx pGHy ghc n ny nx nGHy (msLoopI pGHx pGHy ghc nGHy ny nx n m) a b = _
    rw [msLoopJ_eq, ih]
    split_ifs with h
    · rw [Finset.sum_range_succ]
      ring
    · ring

theorem multispot_eq (pGHx pGHy ghc : ℕ → ℕ → ℚ) (nGHx nGHy ny nx : ℕ)
    (mspots : ℕ → ℕ → ℚ) (a b : ℕ) :
    multispot pGHx pGHy ghc nGHx nGHy ny nx mspots a b
      = mspots a b + (if a < ny ∧ b < nx then
          ∑ i ∈ Finset.range nGHx, ∑ j ∈ Finset.range nGHy,
            ghc i j * pGHy j a * pGHx i b else 0) := by
  exact msLoopI_eq pGHx pGHy ghc nGHy ny nx nGHx mspots a b

/-- C6 counterexample: with the degree-(0,0) coefficient equal to −1 and
unit pixel-integrated profiles, the synthesized spot entry
`spot[0,0] = Σ c[i,j]·pGHy[j,0]·pGHx[i,0]` is −1 < 0: nothing in the
combination step makes the spot entries non-negative. -/
theorem multispot_entry_negative :
    multispot (fun _ _ => 1) (fun _ _ => 1) (fun _ _ => -1) 1 1 1 1 (fun _ _ => 0) 0 0 < 0 := by
  rw [multispot_eq]
  norm_num

/-- C6 amended: a synthesized spot entry need not be non-negative in
general; every entry is non-negative provided the accumulator start, all
Gauss-Hermite coefficients and all pixel-integrated profile values
involved are themselves non-negative. -/
theorem multispot_nonneg (pGHx pGHy ghc : ℕ → ℕ → ℚ) (nGHx nGHy ny nx : ℕ)
    (mspots : ℕ → ℕ → ℚ) (a b : ℕ)
    (hm : 0 ≤ mspots a b)
    (hg : ∀ i j, 0 ≤ ghc i j)
    (hx : ∀ i k, 0 ≤ pGHx i k)
    (hy : ∀ j k, 0 ≤ pGHy j k) :
    0 ≤ multispot pGHx pGHy ghc nGHx nGHy ny nx mspots a b := by
  rw [multispot_eq]
  apply add_nonneg hm
  by_cases h : a < ny ∧ b < nx
  · rw [if_pos h]
    apply Finset.sum_nonneg
    intro i _
    apply Finset.sum_nonneg
    intro j _
    exact mul_nonneg (mul_nonneg (hg i j) (hy j a)) (hx i b)
  · rw [if_neg h]

/-- Witness for C6 amended, at unit profiles and coefficients. -/
theorem multispot_nonneg_witness :
    (0:ℚ) ≤ (fun _ _ : ℕ => (0:ℚ)) 0 0 ∧ (∀ i j : ℕ, (0:ℚ) ≤ (fun _ _ : ℕ => (1:ℚ)) i j) ∧
      0 ≤ multispot (fun _ _ => 1) (fun _ _ => 1) (fun _ _ => 1) 1 1 1 1 (fun _ _ => 0) 0 0 :=
  ⟨le_refl 0, fun _ _ => zero_le_one,
    multispot_nonneg (fun _ _ => 1) (fun _ _ => 1) (fun _ _ => 1) 1 1 1 1 (fun _ _ => 0) 0 0
      (le_refl 0) (fun _ _ => zero_le_one) (fun _ _ => zero_le_one) (fun _ _ => zero_le_one)⟩

/-- The accumulator state of `cache_spots` (proj_matrix_gpu.py lines
222–235) after `k` iterations of `for ispec in range(nspec)`: `mspots` is
allocated as `cp.zeros((nwave, ny, nx))` once, before the loop, and every
iteration launches `multispot`, which accumulates into it with `+=`; it is
never reset between spectra. The per-spectrum inputs (`calc_pgh` outputs
and the coefficient slice `p['GH'][:,:,ispec,:]`) are abstracted as the
families `pGHx`, `pGHy`, `ghc` indexed by the spectrum. -/
def mspotsAfter (pGHx pGHy : ℕ → ℕ → ℕ → ℚ) (ghc : ℕ → ℕ → ℕ → ℚ)
    (nGHx nGHy ny nx : ℕ) : ℕ → (ℕ → ℕ → ℚ)
  | 0 => fun _ _ => 0
  | k+1 => multispot (pGHx k) (pGHy k) (ghc k) nGHx nGHy ny nx
      (mspotsAfter pGHx pGHy ghc nGHx nGHy ny nx k)

/-- The row `spots[k]` returned by `cache_spots`: the copy
`spots[ispec] = mspots` taken right after iteration `k`. -/
def cache_spots (pGHx pGHy : ℕ → ℕ → ℕ → ℚ) (ghc : ℕ → ℕ → ℕ → ℚ)
    (nGHx nGHy ny nx : ℕ) (k : ℕ) : ℕ → ℕ → ℚ :=
  mspotsAfter pGHx pGHy ghc nGHx nGHy ny nx (k+1)

/-- The spot image of spectrum `k` alone: what one `multispot` launch
produces from a fresh all-zero accumulator. -/
def spotImage (pGHx pGHy : ℕ → ℕ → ℕ → ℚ) (ghc : ℕ → ℕ → ℕ → ℚ)
    (nGHx nGHy ny nx : ℕ) (k : ℕ) : ℕ → ℕ → ℚ :=
  multispot (pGHx k) (pGHy k) (ghc k) nGHx nGHy ny nx (fun _ _ => 0)

/-- C9: because `mspots` is allocated once and never reset while
`multispot` accumulates with `+=`, the returned `spots[k]` is the sum of
the individual spot images of spectra `0 … k`, not the image of spectrum
`k` alone; and `spots[k]` coincides with spectrum `k`'s own image at a
footprint cell exactly when `k = 0` or the earlier spectra contribute
zero there in total. -/
theorem cache_spots_cumulative (pGHx pGHy ghc : ℕ → ℕ → ℕ → ℚ)
    (nGHx nGHy ny nx : ℕ) (k a b : ℕ) :
    cache_spots pGHx pGHy ghc nGHx nGHy ny nx k a b
      = ∑ i ∈ Finset.range (k+1), spotImage pGHx pGHy ghc nGHx nGHy ny nx i a b ∧
    (cache_spots pGHx pGHy ghc nGHx nGHy ny nx k a b
        = spotImage pGHx pGHy ghc nGHx nGHy ny nx k a b ↔
      (k = 0 ∨ ∑ i ∈ Finset.range k, spotImage pGHx pGHy ghc nGHx nGHy ny nx i a b = 0)) := by
  have hstep : ∀ i, mspotsAfter pGHx pGHy ghc nGHx nGHy ny nx (i+1) a b
      = mspotsAfter pGHx pGHy ghc nGHx nGHy ny nx i a b
        + spotImage pGHx pGHy ghc nGHx nGHy ny nx i a b := by
    intro i
    show multispot (pGHx i) (pGHy i) (ghc i) nGHx nGHy ny nx
        (mspotsAfter pGHx pGHy ghc nGHx nGHy ny nx i) a b = _
    rw [multispot_eq]
    unfold spotImage
    rw [multispot_eq]
    ring
  have hsum : ∀ n, mspotsAfter pGHx pGHy ghc nGHx nGHy ny nx n a b
      = ∑ i ∈ Finset.range n, spotImage pGHx pGHy ghc nGHx nGHy ny nx i a b := by
    intro n
    induction n with
    | zero => simp [mspotsAfter]
    | succ n ih => rw [hstep n, ih, Finset.sum_range_succ]
  have hmain : cache_spots pGHx pGHy ghc nGHx nGHy ny nx k a b
      = ∑ i ∈ Finset.range (k+1), spotImage pGHx pGHy ghc nGHx nGHy ny nx i a b :=
    hsum (k+1)
  refine ⟨hmain, ?_⟩
  rw [hmain, Finset.sum_range_succ]
  constructor
  · intro h
    exact Or.inr (by linarith)
  · rintro (rfl | h)
    · simp
    · rw [h, zero_add]

/-- The shared 4D design matrix `A[y, x, i, j]`, pixel coordinates in `ℤ`
(corners are integer pixel positions minus a bounding-box minimum). -/
abbrev Arr4 := ℤ → ℤ → ℕ → ℕ → ℚ

/-- Pointwise update of the 4D matrix: the model of `A[y, x, i, j] = v`. -/
def upd4 (A : Arr4) (y x : ℤ) (i j : ℕ) (v : ℚ) : Arr4 :=
  fun y' x' i' j' => if y' = y ∧ x' = x ∧ i' = i ∧ j' = j then v else A y' x' i' j'

/-- The inputs shared by all projection-matrix kernels: corner tables
`xc`, `yc`, the bounding-box minima, the sub-range offsets `ispec`,
`iwave`, the spot cache, and the footprint size `ny × nx`
(`ny, nx = spots.shape[2:4]`). -/
structure PMCtx where
  xc : ℕ → ℕ → ℤ
  yc : ℕ → ℕ → ℤ
  xmin : ℤ
  ymin : ℤ
  ispec : ℕ
  iwave : ℕ
  spots : ℕ → ℕ → ℕ → ℕ → ℚ
  ny : ℕ
  nx : ℕ

/-- `ixc = xc[ispec+i, iwave+j] - xmin` of lane `(i, j)`. -/
def ixcOf (c : PMCtx) (i j : ℕ) : ℤ := c.xc (c.ispec + i) (c.iwave + j) - c.xmin

/-- `iyc = yc[ispec+i, iwave+j] - ymin` of lane `(i, j)`. -/
def iycOf (c : PMCtx) (i j : ℕ) : ℤ := c.yc (c.ispec + i) (c.iwave + j) - c.ymin

/-- Inner loop `for ix, x in enumerate(range(ixc, ixc+nx))` of the
footprint scatter (proj_matrix_gpu.py lines 266–268,
proj_matrix_proj_matrix.py lines 191–193): iteration `ix` reads
`temp_spot = spots[ispec+i, iwave+j][iy, ix]` and stores it at
`A[iyc+iy, ixc+ix, i, j]` — with `acc = true` via `+=`
(`projection_matrix2`), with `acc = false` via plain `=` (the assign
variant). -/
def pmLoopX (c : PMCtx) (acc : Bool) (i j iy : ℕ) : ℕ → Arr4 → Arr4
  | 0, A => A
  | n+1, A =>
    let Ap := pmLoopX c acc i j iy n A
    let temp_spot := c.spots (c.ispec + i) (c.iwave + j) iy n
    upd4 Ap (iycOf c i j + iy) (ixcOf c i j + n) i j
      (if acc then Ap (iycOf c i j + iy) (ixcOf c i j + n) i j + temp_spot else temp_spot)

/-- Outer loop `for iy, y in enumerate(range(iyc, iyc+ny))` of the
footprint scatter. -/
def pmLoopY (c : PMCtx) (acc : Bool) (i j : ℕ) : ℕ → Arr4 → Arr4
  | 0, A => A
  | n+1, A => pmLoopX c acc i j n c.nx (pmLoopY c acc i j n A)

/-- The whole body of one `(i, j)` lane of the 2D scatter kernels. -/
def pmLaneBody (c : PMCtx) (acc : Bool) (i j : ℕ) (A : Arr4) : Arr4 :=
  pmLoopY c acc i j c.ny A

/-- All lanes `(i, j)` with `j < n` for a fixed `i`, composed
sequentially; lanes write disjoint cells of `A` (the last two indices are
the lane's own `(i, j)`), so this is the semantics of the parallel 2D
launch. -/
def pmRunJ (c : PMCtx) (acc : Bool) (i : ℕ) : ℕ → Arr4 → Arr4
  | 0, A => A
  | n+1, A => pmLaneBody c acc i n (pmRunJ c acc i n A)

/-- All lanes `(i, j)` with `i < n`, `j < nwave`. -/
def pmRunI (c : PMCtx) (acc : Bool) (nwave : ℕ) : ℕ → Arr4 → Arr4
  | 0, A => A
  | n+1, A => pmRunJ c acc n nwave (pmRunI c acc nwave n A)

/-- The accumulating 2D kernel `projection_matrix2` (proj_matrix_gpu.py
lines 253–268): every in-range lane `(i, j)` adds its spot into the
footprint at `A[iyc+iy, ixc+ix, i, j]` with `+=`. -/
def projection_matrix2 (c : PMCtx) (nspec nwave : ℕ) (A : Arr4) : Arr4 :=
  pmRunI c true nwave nspec A

/-- The assigning 2D kernel `projection_matrix` of
proj_matrix_proj_matrix.py (lines 177–193): identical loop structure but
`A[y, x, i, j] = temp_spot` — plain assignment, not accumulation. -/
def projection_matrix_assign (c : PMCtx) (nspec nwave : ℕ) (A : Arr4) : Arr4 :=
  pmRunI c false nwave nspec A

theorem pmLoopX_eq (c : PMCtx) (acc : Bool) (i j iy : ℕ) :
    ∀ n A y x i' j',
      pmLoopX c acc i j iy n A y x i' j'
        = if y = iycOf c i j + iy ∧ ixcOf c i j ≤ x ∧ x < ixcOf c i j + n
              ∧ i' = i ∧ j' = j then
            (if acc then A y x i' j'
                + c.spots (c.ispec + i) (c.iwave + j) iy (x - ixcOf c i j).toNat
              else c.spots (c.ispec + i) (c.iwave + j) iy (x - ixcOf c i j).toNat)
          else A y x i' j' := by
  intro n
  induction n with
  | zero =>
    intro A y x i' j'
    rw [if_neg (by omega)]
    rfl
  | succ n ih =>
    intro A y x i' j'
    show upd4 (pmLoopX c acc i j iy n A) (iycOf c i j + iy) (ixcOf c i j + n) i j _ y x i' j' = _
    unfold upd4
    by_cases h : y = iycOf c i j + iy ∧ x = ixcOf c i j + n ∧ i' = i ∧ j' = j
    · rw [if_pos h]
      obtain ⟨hy, hx, hi, hj⟩ := h
      have hcell : pmLoopX c acc i j iy n A (iycOf c i j + iy) (ixcOf c i j + n) i j
          = A (iycOf c i j + iy) (ixcOf c i j + n) i j := by
        rw [ih]
        rw [if_neg (by omega)]
      have hC : y = iycOf c i j + (iy : ℤ) ∧ ixcOf c i j ≤ x
          ∧ x < ixcOf c i j + ((n + 1 : ℕ) : ℤ) ∧ i' = i ∧ j' = j :=
        ⟨hy, by omega, by omega, hi, hj⟩
      rw [hcell, if_pos hC]
      subst hy
      subst hx
      rw [hi, hj]
      have htn : (ixcOf c i j + (n : ℤ) - ixcOf c i j).toNat = n := by omega
      rw [htn]
    · rw [if_neg h, ih]
      by_cases h1 : y = iycOf c i j + (iy : ℤ) ∧ ixcOf c i j ≤ x
          ∧ x < ixcOf c i j + (n : ℤ) ∧ i' = i ∧ j' = j
      · have h2 : y = iycOf c i j + (iy : ℤ) ∧ ixcOf c i j ≤ x
            ∧ x < ixcOf c i j + ((n + 1 : ℕ) : ℤ) ∧ i' = i ∧ j' = j :=
          ⟨h1.1, h1.2.1, by omega, h1.2.2.2.1, h1.2.2.2.2⟩
        rw [if_pos h1, if_pos h2]
      · have h2 : ¬(y = iycOf c i j + (iy : ℤ) ∧ ixcOf c i j ≤ x
            ∧ x < ixcOf c i j + ((n + 1 : ℕ) : ℤ) ∧ i' = i ∧ j' = j) := by
          intro hc
          obtain ⟨hy, hxl, hxu, hi, hj⟩ := hc
          have hxn : x ≠ ixcOf c i j + (n : ℤ) := fun hx => h ⟨hy, hx, hi, hj⟩
          exact h1 ⟨hy, hxl, by omega, hi, hj⟩
        rw [if_neg h1, if_neg h2]

theorem pmLoopY_eq (c : PMCtx) (acc : Bool) (i j : ℕ) :
    ∀ n A y x i' j',
      pmLoopY c acc i j n A y x i' j'
        = if iycOf c i j ≤ y ∧ y < iycOf c i j + n ∧ ixcOf c i j ≤ x
              ∧ x < ixcOf c i j + c.nx ∧ i' = i ∧ j' = j then
            (if acc then A y x i' j'
                + c.spots (c.ispec + i) (c.iwave + j) (y - iycOf c i j).toNat
                    (x - ixcOf c i j).toNat
              else c.spots (c.ispec + i) (c.iwave + j) (y - iycOf c i j).toNat
                  (x - ixcOf c i j).toNat)
          else A y x i' j' := by
  intro n
  induction n with
  | zero =>
    intro A y x i' j'
    rw [if_neg (by omega)]
    rfl
  | succ n ih =>
    intro A y x i' j'
    show pmLoopX c acc i j n c.nx (pmLoopY c acc i j n A) y x i' j' = _
    rw [pmLoopX_eq, ih]
    by_cases hx2 : y = iycOf c i j + (n : ℤ) ∧ ixcOf c i j ≤ x
        ∧ x < ixcOf c i j + (c.nx : ℤ) ∧ i' = i ∧ j' = j
    · have hyn : ¬(iycOf c i j ≤ y ∧ y < iycOf c i j + (n : ℤ) ∧ ixcOf c i j ≤ x
          ∧ x < ixcOf c i j + (c.nx : ℤ) ∧ i' = i ∧ j' = j) := by
        intro hc
        omega
      have hCy : iycOf c i j ≤ y ∧ y < iycOf c i j + ((n + 1 : ℕ) : ℤ) ∧ ixcOf c i j ≤ x
          ∧ x < ixcOf c i j + (c.nx : ℤ) ∧ i' = i ∧ j' = j :=
        ⟨by omega, by omega, hx2.2.1, hx2.2.2.1, hx2.2.2.2.1, hx2.2.2.2.2⟩
      rw [if_pos hx2, if_neg hyn, if_pos hCy]
      have hyn2 : (y - iycOf c i j).toNat = n := by omega
      rw [hyn2]
    · have hiff : (iycOf c i j ≤ y ∧ y < iycOf c i j + (n : ℤ) ∧ ixcOf c i j ≤ x
          ∧ x < ixcOf c i j + (c.nx : ℤ) ∧ i' = i ∧ j' = j) ↔
          (iycOf c i j ≤ y ∧ y < iycOf c i j + ((n + 1 : ℕ) : ℤ) ∧ ixcOf c i j ≤ x
          ∧ x < ixcOf c i j + (c.nx : ℤ) ∧ i' = i ∧ j' = j) := by
        constructor
        · intro hc
          exact ⟨hc.1, by omega, hc.2.2⟩
        · intro hc
          refine ⟨hc.1, ?_, hc.2.2⟩
          have hyneq : y ≠ iycOf c i j + (n : ℤ) :=
            fun hy => hx2 ⟨hy, hc.2.2.1, hc.2.2.2.1, hc.2.2.2.2⟩
          omega
      rw [if_neg hx2, if_congr hiff rfl rfl]

theorem pmRunJ_untouched (c : PMCtx) (acc : Bool) (i : ℕ) :
    ∀ n A y x i' j', (i' ≠ i ∨ n ≤ j') →
      pmRunJ c acc i n A y x i' j' = A y x i' j' := by
  intro n
  induction n with
  | zero => intro A y x i' j' _; rfl
  | succ n ih =>
    intro A y x i' j' h
    show pmLaneBody c acc i n (pmRunJ c acc i n A) y x i' j' = _
    unfold pmLaneBody
    rw [pmLoopY_eq]
    have hnotC : ¬(iycOf c i n ≤ y ∧ y < iycOf c i n + c.ny ∧ ixcOf c i n ≤ x
        ∧ x < ixcOf c i n + c.nx ∧ i' = i ∧ j' = n) := by
      intro hc
      rcases h with h | h
      · exact h hc.2.2.2.2.1
      · omega
    rw [if_neg hnotC]
    refine ih A y x i' j' ?_
    rcases h with h | h
    · exact Or.inl h
    · exact Or.inr (by omega)

theorem pmRunJ_val (c : PMCtx) (acc : Bool) (i : ℕ) :
    ∀ n A y x j', j' < n →
      pmRunJ c acc i n A y x i j' = pmLaneBody c acc i j' A y x i j' := by
  intro n
  induction n with
  | zero => intro A y x j' h; omega
  | succ n ih =>
    intro A y x j' h
    show pmLaneBody c acc i n (pmRunJ c acc i n A) y x i j' = _
    rcases Nat.lt_or_ge j' n with hj | hj
    · unfold pmLaneBody
      rw [pmLoopY_eq]
      have hnotC : ¬(iycOf c i n ≤ y ∧ y < iycOf c i n + c.ny ∧ ixcOf c i n ≤ x
          ∧ x < ixcOf c i n + c.nx ∧ i = i ∧ j' = n) := by
        intro hc
        omega
      rw [if_neg hnotC]
      exact ih A y x j' hj
    · have hj2 : j' = n := by omega
      rw [hj2]
      unfold pmLaneBody
      rw [pmLoopY_eq, pmLoopY_eq,
        pmRunJ_untouched c acc i n A y x i n (Or.inr (le_refl n))]

theorem pmRunI_untouched (c : PMCtx) (acc : Bool) (nwave : ℕ) :
    ∀ n A y x i' j', n ≤ i' →
      pmRunI c acc nwave n A y x i' j' = A y x i' j' := by
  intro n
  induction n with
  | zero => intro A y x i' j' _; rfl
  | succ n ih =>
    intro A y x i' j' h
    show pmRunJ c acc n nwave (pmRunI c acc nwave n A) y x i' j' = _
    rw [pmRunJ_untouched c acc n nwave _ y x i' j' (Or.inl (by omega)),
      ih A y x i' j' (by omega)]

theorem pmRunI_val (c : PMCtx) (acc : Bool) (nwave : ℕ) :
    ∀ n A y x i' j', i' < n → j' < nwave →
      pmRunI c acc nwave n A y x i' j' = pmLaneBody c acc i' j' A y x i' j' := by
  intro n
  induction n with
  | zero => intro A y x i' j' h _; omega
  | succ n ih =>
    intro A y x i' j' h hj
    show pmRunJ c acc n nwave (pmRunI c acc nwave n A) y x i' j' = _
    rcases Nat.lt_or_ge i' n with hi | hi
    · rw [pmRunJ_untouched c acc n nwave _ y x i' j' (Or.inl (by omega))]
      exact ih A y x i' j' hi hj
    · have hi2 : i' = n := by omega
      subst hi2
      rw [pmRunJ_val c acc i' nwave (pmRunI c acc nwave i' A) y x j' hj]
      unfold pmLaneBody
      rw [pmLoopY_eq, pmLoopY_eq,
        pmRunI_untouched c acc nwave i' A y x i' j' (le_refl i')]

/-- C1 counterexample context: a single spectrum and wavelength, corners
at the origin, footprint 1×1, constant spot value 2. -/
def pmCtxEx : PMCtx :=
  ⟨fun _ _ => 0, fun _ _ => 0, 0, 0, 0, 0, fun _ _ _ _ => 2, 1, 1⟩

/-- C1 counterexample: on a matrix holding 1 everywhere, the assign
variant (`projection_matrix` of proj_matrix_proj_matrix.py) leaves the
footprint cell equal to the spot value 2, not to the accumulated
1 + 2 = 3 — it overwrites instead of adding, so the claimed accumulate
behaviour does not hold for both kernel variants. -/
theorem projection_matrix_assign_overwrites :
    projection_matrix_assign pmCtxEx 1 1 (fun _ _ _ _ => 1) 0 0 0 0 = 2 ∧
      (2 : ℚ) ≠ (fun _ _ _ _ => (1 : ℚ)) (0 : ℤ) (0 : ℤ) 0 0 + pmCtxEx.spots 0 0 0 0 := by
  constructor
  · decide
  · show (2 : ℚ) ≠ (1 : ℚ) + (2 : ℚ)
    norm_num

/-- C1 amended: for every in-range spectrum `i`, wavelength `j` and
footprint pixel `(dy, dx)`, the accumulating kernel `projection_matrix2`
adds `spots[ispec+i, iwave+j][dy, dx]` into
`A[iyc+dy, ixc+dx, i, j]` with `(ixc, iyc) = (xc[…]-xmin, yc[…]-ymin)`,
while the second variant (`projection_matrix` of
proj_matrix_proj_matrix.py) stores the spot value there, overwriting the
previous content: the add-never-overwrite behaviour holds only for the
`projection_matrix2` variant. -/
theorem projection_matrix_footprint (c : PMCtx) (nspec nwave : ℕ) (A : Arr4)
    (i j dy dx : ℕ) (hi : i < nspec) (hj : j < nwave) (hdy : dy < c.ny) (hdx : dx < c.nx) :
    projection_matrix2 c nspec nwave A (iycOf c i j + dy) (ixcOf c i j + dx) i j
      = A (iycOf c i j + dy) (ixcOf c i j + dx) i j
        + c.spots (c.ispec + i) (c.iwave + j) dy dx ∧
    projection_matrix_assign c nspec nwave A (iycOf c i j + dy) (ixcOf c i j + dx) i j
      = c.spots (c.ispec + i) (c.iwave + j) dy dx := by
  have hC : iycOf c i j ≤ iycOf c i j + (dy : ℤ)
      ∧ iycOf c i j + (dy : ℤ) < iycOf c i j + (c.ny : ℤ)
      ∧ ixcOf c i j ≤ ixcOf c i j + (dx : ℤ)
      ∧ ixcOf c i j + (dx : ℤ) < ixcOf c i j + (c.nx : ℤ) ∧ i = i ∧ j = j :=
    ⟨by omega, by omega, by omega, by omega, rfl, rfl⟩
  have hty : (iycOf c i j + (dy : ℤ) - iycOf c i j).toNat = dy := by omega
  have htx : (ixcOf c i j + (dx : ℤ) - ixcOf c i j).toNat = dx := by omega
  constructor
  · unfold projection_matrix2
    rw [pmRunI_val c true nwave nspec A _ _ i j hi hj]
    unfold pmLaneBody
    rw [pmLoopY_eq, if_pos hC, if_pos rfl, hty, htx]
  · unfold projection_matrix_assign
    rw [pmRunI_val c false nwave nspec A _ _ i j hi hj]
    unfold pmLaneBody
    rw [pmLoopY_eq, if_pos hC, if_neg (by decide), hty, htx]

/-- Witness for C1 amended at the concrete 1×1 context. -/
theorem projection_matrix_footprint_witness :
    ((0 : ℕ) < 1 ∧ 0 < pmCtxEx.ny ∧ 0 < pmCtxEx.nx) ∧
      (projection_matrix2 pmCtxEx 1 1 (fun _ _ _ _ => 1)
            (iycOf pmCtxEx 0 0 + ((0 : ℕ) : ℤ)) (ixcOf pmCtxEx 0 0 + ((0 : ℕ) : ℤ)) 0 0
          = (fun _ _ _ _ => (1 : ℚ)) (iycOf pmCtxEx 0 0 + ((0 : ℕ) : ℤ))
              (ixcOf pmCtxEx 0 0 + ((0 : ℕ) : ℤ)) 0 0
            + pmCtxEx.spots (pmCtxEx.ispec + 0) (pmCtxEx.iwave + 0) 0 0 ∧
        projection_matrix_assign pmCtxEx 1 1 (fun _ _ _ _ => 1)
            (iycOf pmCtxEx 0 0 + ((0 : ℕ) : ℤ)) (ixcOf pmCtxEx 0 0 + ((0 : ℕ) : ℤ)) 0 0
          = pmCtxEx.spots (pmCtxEx.ispec + 0) (pmCtxEx.iwave + 0) 0 0) :=
  ⟨⟨Nat.zero_lt_one, by decide, by decide⟩,
    projection_matrix_footprint pmCtxEx 1 1 (fun _ _ _ _ => 1) 0 0 0 0
      Nat.zero_lt_one Nat.zero_lt_one (by decide) (by decide)⟩

/-- The lane-local state of the first GPU `projection_matrix` kernel
(proj_matrix_gpu.py lines 239–251): the heap contents of the caller's
array together with the lane's local binding of the name `A`, which
initially refers to that array (`Sum.inl`) and, after the statement
`A = local_spot`, to a spot slice (`Sum.inr`). -/
abbrev PM1Local := Arr4 ⊕ (ℕ → ℕ → ℚ)

/-- Body of one iteration of `for j in range(nwave)` in the first GPU
`projection_matrix` kernel: it computes `ixc` and `iyc`, reads
`local_spot = spots[ispec+i, iwave+j]`, and executes `A = local_spot` — a
rebinding of the local name, not a store: the heap component is returned
unchanged. -/
def pm1Body (c : PMCtx) (i j : ℕ) (s : Arr4 × PM1Local) : Arr4 × PM1Local :=
  let ixc := ixcOf c i j
  let iyc := iycOf c i j
  let local_spot := c.spots (c.ispec + i) (c.iwave + j)
  (s.1, Sum.inr local_spot)

/-- The `for j in range(nwave)` loop of one lane `i`. -/
def pm1Lane (c : PMCtx) (i : ℕ) : ℕ → (Arr4 × PM1Local) → (Arr4 × PM1Local)
  | 0, s => s
  | n+1, s => pm1Body c i n (pm1Lane c i n s)

/-- All lanes `i < nspec` of the first GPU `projection_matrix` kernel;
each lane starts with its local `A` bound to the caller's array. -/
def pm1Run (c : PMCtx) (nwave : ℕ) : ℕ → Arr4 → Arr4
  | 0, A => A
  | n+1, A =>
    let Ap := pm1Run c nwave n A
    (pm1Lane c n nwave (Ap, Sum.inl Ap)).1

/-- The first GPU `projection_matrix` kernel (proj_matrix_gpu.py lines
239–251), taking arguments in the order `A, xc, yc, xmin, ymin, …`: its
body never stores into an element of `A`. -/
def projection_matrix (c : PMCtx) (nspec nwave : ℕ) (A : Arr4) : Arr4 :=
  pm1Run c nwave nspec A

theorem pm1Lane_fst (c : PMCtx) (i : ℕ) :
    ∀ n s, (pm1Lane c i n s).1 = s.1 := by
  intro n
  induction n with
  | zero => intro s; rfl
  | succ n ih =>
    intro s
    show (pm1Body c i n (pm1Lane c i n s)).1 = s.1
    exact ih s

/-- C10: the first GPU `projection_matrix` kernel only rebinds a local
name — it performs no element store into `A` — so after the launch every
entry of `A` is exactly what it was before; in particular an all-zero `A`
(`A_gpu`, proj_matrix_gpu.py lines 329–334) remains all-zero. -/
theorem projection_matrix_no_store (c : PMCtx) (nspec nwave : ℕ) (A : Arr4) :
    projection_matrix c nspec nwave A = A ∧
      projection_matrix c nspec nwave (fun _ _ _ _ => 0) = fun _ _ _ _ => 0 := by
  have hrun : ∀ n (B : Arr4), pm1Run c nwave n B = B := by
    intro n
    induction n with
    | zero => intro B; rfl
    | succ n ih =>
      intro B
      show (pm1Lane c n nwave (pm1Run c nwave n B, Sum.inl (pm1Run c nwave n B))).1 = B
      rw [pm1Lane_fst]
      exact ih B
  exact ⟨hrun nspec A, hrun nspec (fun _ _ _ _ => 0)⟩

/-- The values of the 2D corner slice `f[ispec:ispec+nspec, iwave:iwave+nwave]`
in row-major order, as read by `np.min` / `np.max` (proj_matrix_gpu.py
lines 315–318, proj_matrix_proj_matrix.py lines 255–258). -/
def sliceVals (f : ℕ → ℕ → ℤ) (ispec iwave nspec nwave : ℕ) : List ℤ :=
  (List.range nspec).flatMap (fun i => (List.range nwave).map (fun j => f (ispec + i) (iwave + j)))

/-- `np.min` of a non-empty array of integers (0 is a dummy for the empty
case, on which numpy raises). -/
def npMin : List ℤ → ℤ
  | [] => 0
  | v :: r => r.foldl min v

/-- `np.max` of a non-empty array of integers. -/
def npMax : List ℤ → ℤ
  | [] => 0
  | v :: r => r.foldl max v

/-- The allocation `A = np.zeros((ymax-ymin, xmax-xmin, nspec, nwave))`
with `xmin = np.min(xc[…])`, `xmax = np.max(xc[…]) + nx`,
`ymin = np.min(yc[…])`, `ymax = np.max(yc[…]) + ny` over the current
sub-range (proj_matrix_gpu.py lines 315–319, proj_matrix_proj_matrix.py
lines 255–259; `ny, nx = spots.shape[2:4]` are the footprint sizes
`HSIZEY`, `HSIZEX`): the shape tuple together with the all-zero
contents. -/
def A_alloc (xc yc : ℕ → ℕ → ℤ) (ispec iwave nspec nwave nx ny : ℕ) :
    (ℤ × ℤ × ℕ × ℕ) × Arr4 :=
  let xmin := npMin (sliceVals xc ispec iwave nspec nwave)
  let xmax := npMax (sliceVals xc ispec iwave nspec nwave) + nx
  let ymin := npMin (sliceVals yc ispec iwave nspec nwave)
  let ymax := npMax (sliceVals yc ispec iwave nspec nwave) + ny
  ((ymax - ymin, xmax - xmin, nspec, nwave), fun _ _ _ _ => 0)

theorem foldl_min_le_init (l : List ℤ) : ∀ v : ℤ, l.foldl min v ≤ v := by
  induction l with
  | nil => intro v; exact le_refl v
  | cons a t ih => intro v; exact le_trans (ih (min v a)) (min_le_left v a)

theorem foldl_min_le_mem (l : List ℤ) : ∀ v a, a ∈ l → l.foldl min v ≤ a := by
  induction l with
  | nil => intro v a ha; cases ha
  | cons b t ih =>
    intro v a ha
    rcases List.mem_cons.1 ha with rfl | ha
    · exact le_trans (foldl_min_le_init t (min v a)) (min_le_right v a)
    · exact ih (min v b) a ha

theorem foldl_min_mem (l : List ℤ) : ∀ v, l.foldl min v = v ∨ l.foldl min v ∈ l := by
  induction l with
  | nil => intro v; exact Or.inl rfl
  | cons b t ih =>
    intro v
    rw [List.foldl_cons]
    rcases ih (min v b) with h | h
    · rcases le_total v b with hvb | hvb
      · exact Or.inl (by rw [h]; exact min_eq_left hvb)
      · refine Or.inr ?_
        rw [h, min_eq_right hvb]
        exact List.mem_cons_self b t
    · exact Or.inr (List.mem_cons_of_mem b h)

theorem foldl_max_le_init (l : List ℤ) : ∀ v : ℤ, v ≤ l.foldl max v := by
  induction l with
  | nil => intro v; exact le_refl v
  | cons a t ih => intro v; exact le_trans (le_max_left v a) (ih (max v a))

theorem foldl_max_le_mem (l : List ℤ) : ∀ v a, a ∈ l → a ≤ l.foldl max v := by
  induction l with
  | nil => intro v a ha; cases ha
  | cons b t ih =>
    intro v a ha
    rcases List.mem_cons.1 ha with rfl | ha
    · exact le_trans (le_max_right v a) (foldl_max_le_init t (max v a))
    · exact ih (max v b) a ha

theorem foldl_max_mem (l : List ℤ) : ∀ v, l.foldl max v = v ∨ l.foldl max v ∈ l := by
  induction l with
  | nil => intro v; exact Or.inl rfl
  | cons b t ih =>
    intro v
    rw [List.foldl_cons]
    rcases ih (max v b) with h | h
    · rcases le_total b v with hvb | hvb
      · exact Or.inl (by rw [h]; exact max_eq_left hvb)
      · refine Or.inr ?_
        rw [h, max_eq_right hvb]
        exact List.mem_cons_self b t
    · exact Or.inr (List.mem_cons_of_mem b h)

theorem npMin_spec (l : List ℤ) (h : l ≠ []) :
    npMin l ∈ l ∧ ∀ a ∈ l, npMin l ≤ a := by
  match l with
  | [] => exact absurd rfl h
  | v :: r =>
    constructor
    · show r.foldl min v ∈ v :: r
      rcases foldl_min_mem r v with h1 | h1
      · rw [h1]; exact List.mem_cons_self v r
      · exact List.mem_cons_of_mem v h1
    · intro a ha
      rcases List.mem_cons.1 ha with rfl | ha
      · exact foldl_min_le_init r a
      · exact foldl_min_le_mem r v a ha

theorem npMax_spec (l : List ℤ) (h : l ≠ []) :
    npMax l ∈ l ∧ ∀ a ∈ l, a ≤ npMax l := by
  match l with
  | [] => exact absurd rfl h
  | v :: r =>
    constructor
    · show r.foldl max v ∈ v :: r
      rcases foldl_max_mem r v with h1 | h1
      · rw [h1]; exact List.mem_cons_self v r
      · exact List.mem_cons_of_mem v h1
    · intro a ha
      rcases List.mem_cons.1 ha with rfl | ha
      · exact foldl_max_le_init r a
      · exact foldl_max_le_mem r v a ha

theorem mem_sliceVals (f : ℕ → ℕ → ℤ) (ispec iwave nspec nwave : ℕ) (a : ℤ) :
    a ∈ sliceVals f ispec iwave nspec nwave ↔
      ∃ i < nspec, ∃ j < nwave, f (ispec + i) (iwave + j) = a := by
  unfold sliceVals
  simp [List.mem_flatMap, List.mem_map, List.mem_range]

theorem npMin_slice_eq (f : ℕ → ℕ → ℤ) (ispec iwave nspec nwave : ℕ)
    (hne : ((Finset.range nspec) ×ˢ (Finset.range nwave)).Nonempty) :
    npMin (sliceVals f ispec iwave nspec nwave)
      = ((Finset.range nspec) ×ˢ (Finset.range nwave)).inf' hne
          (fun p => f (ispec + p.1) (iwave + p.2)) := by
  have hlne : sliceVals f ispec iwave nspec nwave ≠ [] := by
    obtain ⟨p, hp⟩ := hne
    rw [Finset.mem_product, Finset.mem_range, Finset.mem_range] at hp
    exact List.ne_nil_of_mem
      ((mem_sliceVals f ispec iwave nspec nwave _).2 ⟨p.1, hp.1, p.2, hp.2, rfl⟩)
  obtain ⟨hmem, hlb⟩ := npMin_spec _ hlne
  apply le_antisymm
  · obtain ⟨p, hp, heq⟩ := Finset.exists_mem_eq_inf' hne
      (fun p => f (ispec + p.1) (iwave + p.2))
    rw [heq]
    apply hlb
    rw [Finset.mem_product, Finset.mem_range, Finset.mem_range] at hp
    exact (mem_sliceVals f ispec iwave nspec nwave _).2 ⟨p.1, hp.1, p.2, hp.2, rfl⟩
  · obtain ⟨i, hi, j, hj, heq⟩ := (mem_sliceVals f ispec iwave nspec nwave _).1 hmem
    rw [← heq]
    have hmem2 : (i, j) ∈ (Finset.range nspec) ×ˢ (Finset.range nwave) := by
      rw [Finset.mem_product]
      exact ⟨Finset.mem_range.2 hi, Finset.mem_range.2 hj⟩
    exact Finset.inf'_le (fun p => f (ispec + p.1) (iwave + p.2)) hmem2

theorem npMax_slice_eq (f : ℕ → ℕ → ℤ) (ispec iwave nspec nwave : ℕ)
    (hne : ((Finset.range nspec) ×ˢ (Finset.range nwave)).Nonempty) :
    npMax (sliceVals f ispec iwave nspec nwave)
      = ((Finset.range nspec) ×ˢ (Finset.range nwave)).sup' hne
          (fun p => f (ispec + p.1) (iwave + p.2)) := by
  have hlne : sliceVals f ispec iwave nspec nwave ≠ [] := by
    obtain ⟨p, hp⟩ := hne
    rw [Finset.mem_product, Finset.mem_range, Finset.mem_range] at hp
    exact List.ne_nil_of_mem
      ((mem_sliceVals f ispec iwave nspec nwave _).2 ⟨p.1, hp.1, p.2, hp.2, rfl⟩)
  obtain ⟨hmem, hub⟩ := npMax_spec _ hlne
  apply le_antisymm
  · obtain ⟨i, hi, j, hj, heq⟩ := (mem_sliceVals f ispec iwave nspec nwave _).1 hmem
    rw [← heq]
    have hmem2 : (i, j) ∈ (Finset.range nspec) ×ˢ (Finset.range nwave) := by
      rw [Finset.mem_product]
      exact ⟨Finset.mem_range.2 hi, Finset.mem_range.2 hj⟩
    exact Finset.le_sup' (fun p => f (ispec + p.1) (iwave + p.2)) hmem2
  · obtain ⟨p, hp, heq⟩ := Finset.exists_mem_eq_sup' hne
      (fun p => f (ispec + p.1) (iwave + p.2))
    rw [heq]
    apply hub
    rw [Finset.mem_product, Finset.mem_range, Finset.mem_range] at hp
    exact (mem_sliceVals f ispec iwave nspec nwave _).2 ⟨p.1, hp.1, p.2, hp.2, rfl⟩

/-- C8: `A` is allocated before assembly as an all-zero 4D array indexed
`[pixel_y, pixel_x, spectrum, wavelength]`, whose pixel dimensions are the
bounding box of the corners in the current spectrum/wavelength sub-range
plus the footprint size: `(max yc + HSIZEY - min yc,
max xc + HSIZEX - min xc, nspec, nwave)`, the min/max ranging over the
corner values `yc[ispec+i, iwave+j]`, `xc[ispec+i, iwave+j]` with
`i < nspec`, `j < nwave`. -/
theorem A_alloc_shape (xc yc : ℕ → ℕ → ℤ) (ispec iwave nspec nwave nx ny : ℕ)
    (hne : ((Finset.range nspec) ×ˢ (Finset.range nwave)).Nonempty) :
    (A_alloc xc yc ispec iwave nspec nwave nx ny).1
      = (((Finset.range nspec) ×ˢ (Finset.range nwave)).sup'
            hne (fun p => yc (ispec + p.1) (iwave + p.2)) + (ny : ℤ)
          - ((Finset.range nspec) ×ˢ (Finset.range nwave)).inf'
            hne (fun p => yc (ispec + p.1) (iwave + p.2)),
         ((Finset.range nspec) ×ˢ (Finset.range nwave)).sup'
            hne (fun p => xc (ispec + p.1) (iwave + p.2)) + (nx : ℤ)
          - ((Finset.range nspec) ×ˢ (Finset.range nwave)).inf'
            hne (fun p => xc (ispec + p.1) (iwave + p.2)),
         nspec, nwave) ∧
      ∀ y x i j, (A_alloc xc yc ispec iwave nspec nwave nx ny).2 y x i j = 0 := by
  constructor
  · show (npMax (sliceVals yc ispec iwave nspec nwave) + (ny : ℤ)
        - npMin (sliceVals yc ispec iwave nspec nwave),
      npMax (sliceVals xc ispec iwave nspec nwave) + (nx : ℤ)
        - npMin (sliceVals xc ispec iwave nspec nwave), nspec, nwave) = _
    rw [npMax_slice_eq yc ispec iwave nspec nwave hne,
      npMin_slice_eq yc ispec iwave nspec nwave hne,
      npMax_slice_eq xc ispec iwave nspec nwave hne,
      npMin_slice_eq xc ispec iwave nspec nwave hne]
  · intro y x i j
    rfl

theorem rangeProdNonempty : ((Finset.range 1) ×ˢ (Finset.range 1)).Nonempty :=
  ⟨(0, 0), by decide⟩

/-- Witness for C8 at a 1×1 sub-range with corner tables `xc = 3`,
`yc = 5` and footprint `2 × 4`. -/
theorem A_alloc_shape_witness :
    (A_alloc (fun _ _ => 3) (fun _ _ => 5) 0 0 1 1 4 2).1
      = (((Finset.range 1) ×ˢ (Finset.range 1)).sup'
            rangeProdNonempty (fun p => (fun _ _ => (5 : ℤ)) (0 + p.1) (0 + p.2)) + ((2 : ℕ) : ℤ)
          - ((Finset.range 1) ×ˢ (Finset.range 1)).inf'
            rangeProdNonempty (fun p => (fun _ _ => (5 : ℤ)) (0 + p.1) (0 + p.2)),
         ((Finset.range 1) ×ˢ (Finset.range 1)).sup'
            rangeProdNonempty (fun p => (fun _ _ => (3 : ℤ)) (0 + p.1) (0 + p.2)) + ((4 : ℕ) : ℤ)
          - ((Finset.range 1) ×ˢ (Finset.range 1)).inf'
            rangeProdNonempty (fun p => (fun _ _ => (3 : ℤ)) (0 + p.1) (0 + p.2)),
         1, 1) ∧
      ∀ y x i j, (A_alloc (fun _ _ => 3) (fun _ _ => 5) 0 0 1 1 4 2).2 y x i j = 0 :=
  A_alloc_shape (fun _ _ => 3) (fun _ _ => 5) 0 0 1 1 4 2 rangeProdNonempty

/-- One normalized bin-edge position of `calc_pgh` for one wavelength
lane along one axis (proj_matrix_gpu.py lines 149 and 156, identically
proj_matrix_proj_matrix.py lines 96 and 103):
`xedges = (arange(nx+1) - nx//2 - X[ispec]%1) / GHSIGX[ispec]`; `frac`
is the fractional centroid `X[ispec] % 1` of the lane and `sigma` its
Gaussian width. -/
def edge (nx : ℕ) (frac sigma : ℚ) (b : ℕ) : ℚ :=
  ((b : ℚ) - ((nx / 2 : ℕ) : ℚ) - frac) / sigma

/-- The list of the `nx+1` normalized edges of one lane. -/
def edgesL (nx : ℕ) (frac sigma : ℚ) : List ℚ :=
  (List.range (nx + 1)).map (edge nx frac sigma)

/-- `HVx[k, b]`: `hermevander_wrapper(xedges, ghdeg)` runs the
`hermevander` kernel at every edge, on an uninitialised output buffer
(modelled as zeros). -/
def HV (nx ghdeg : ℕ) (frac sigma : ℚ) (k b : ℕ) : ℚ :=
  hermevander (edge nx frac sigma b) ghdeg (fun _ => 0) k

/-- `Gx[b]`: the standard normal density at an edge; `g` abstracts
`x ↦ exp(-0.5·x²)/√(2π)` (proj_matrix_gpu.py line 172). -/
def Gf (g : ℚ → ℚ) (nx : ℕ) (frac sigma : ℚ) (b : ℕ) : ℚ :=
  g (edge nx frac sigma b)

/-- `GHx = HVx * Gx` (proj_matrix_gpu.py line 176). -/
def GHf (g : ℚ → ℚ) (nx ghdeg : ℕ) (frac sigma : ℚ) (k b : ℕ) : ℚ :=
  HV nx ghdeg frac sigma k b * Gf g nx frac sigma b

/-- One degree-row of `GHx` as a list over the `nx+1` edges. -/
def GHrow (g : ℚ → ℚ) (nx ghdeg : ℕ) (frac sigma : ℚ) (k : ℕ) : List ℚ :=
  (List.range (nx + 1)).map (GHf g nx ghdeg frac sigma k)

/-- `np.diff` on a one-dimensional array. -/
def diffL (l : List ℚ) : List ℚ :=
  List.zipWith (fun a b => b - a) l (l.drop 1)

/-- The pixel-integrated profile array `pGHx` of one wavelength lane,
built exactly as the code builds it (proj_matrix_gpu.py lines 184–189,
identically proj_matrix_proj_matrix.py lines 137–142): row 0 is
`0.5 * diff(erf(xedges/√2))`, where `f` abstracts `x ↦ erf(x/√2)`, and the
block of rows `1 … ghdeg` is the slice difference
`GHx[:ghdegx,:,0:nx] - GHx[:ghdegx,:,1:nx+1]`. The `pGHy` axis is the
same construction with `ny`, the y-centroid and `GHSIGY`. -/
def pGH (f g : ℚ → ℚ) (nx ghdeg : ℕ) (frac sigma : ℚ) : List (List ℚ) :=
  ((diffL ((edgesL nx frac sigma).map f)).map (fun d => (1/2) * d)) ::
    (List.range ghdeg).map (fun m =>
      List.zipWith (fun a b => a - b)
        ((GHrow g nx ghdeg frac sigma m).take nx)
        ((GHrow g nx ghdeg frac sigma m).drop 1))

/-- C5: for every lane (spectrum and wavelength) and every bin `b < nx`,
the degree-0 pixel-integrated profile is
`0.5·(erf(edge_{b+1}/√2) − erf(edge_b/√2))` — half the difference of
`erf(edge/√2)` across the bin's two bounding edges — and for every degree
`1 ≤ k ≤ ghdeg` the profile is `GH[k-1]` at the bin's left edge minus
`GH[k-1]` at its right edge, where `GH[k-1]` is the degree-`(k-1)`
probabilist-Hermite value times the normal density `g` at the edge. -/
theorem calc_pgh_pGH_eq (f g : ℚ → ℚ) (nx ghdeg : ℕ) (frac sigma : ℚ)
    (k b : ℕ) (hb : b < nx) :
    (((pGH f g nx ghdeg frac sigma).getD 0 []).getD b 0
        = (1/2) * (f (edge nx frac sigma (b+1)) - f (edge nx frac sigma b))) ∧
    (1 ≤ k → k ≤ ghdeg →
      ((pGH f g nx ghdeg frac sigma).getD k []).getD b 0
        = hermeSeq (edge nx frac sigma b) (k-1) * g (edge nx frac sigma b)
          - hermeSeq (edge nx frac sigma (b+1)) (k-1) * g (edge nx frac sigma (b+1))) := by
  constructor
  · have h0 : (pGH f g nx ghdeg frac sigma).getD 0 []
        = (diffL ((edgesL nx frac sigma).map f)).map (fun d => (1/2) * d) := rfl
    rw [h0]
    have hlen : b < ((diffL ((edgesL nx frac sigma).map f)).map (fun d => (1/2) * d)).length := by
      simp [diffL, edgesL]
      omega
    rw [List.getD_eq_getElem _ _ hlen]
    simp [diffL, edgesL, List.getElem_zipWith, List.getElem_map, List.getElem_drop,
      List.getElem_range, Nat.add_comm]
  · intro hk1 hk2
    obtain ⟨m, rfl⟩ : ∃ m, k = m + 1 := ⟨k - 1, by omega⟩
    have hrow : (pGH f g nx ghdeg frac sigma).getD (m+1) []
        = List.zipWith (fun a b => a - b)
            ((GHrow g nx ghdeg frac sigma m).take nx)
            ((GHrow g nx ghdeg frac sigma m).drop 1) := by
      show ((List.range ghdeg).map _).getD m [] = _
      have hm : m < ((List.range ghdeg).map (fun m =>
          List.zipWith (fun a b => a - b)
            ((GHrow g nx ghdeg frac sigma m).take nx)
            ((GHrow g nx ghdeg frac sigma m).drop 1))).length := by
        simp
        omega
      rw [List.getD_eq_getElem _ _ hm]
      simp [List.getElem_map, List.getElem_range]
    rw [hrow]
    have hlen2 : b < (List.zipWith (fun a b => a - b)
        ((GHrow g nx ghdeg frac sigma m).take nx)
        ((GHrow g nx ghdeg frac sigma m).drop 1)).length := by
      simp [GHrow]
      omega
    rw [List.getD_eq_getElem _ _ hlen2]
    have hghf : ∀ b' < nx + 1, GHf g nx ghdeg frac sigma m b'
        = hermeSeq (edge nx frac sigma b') m * g (edge nx frac sigma b') := by
      intro b' _
      unfold GHf HV Gf
      rw [hermevander_eq_hermeSeq (edge nx frac sigma b') ghdeg (fun _ => 0)
        (by omega) m (by omega)]
    simp [GHrow, List.getElem_zipWith, List.getElem_take, List.getElem_drop,
      List.getElem_map, List.getElem_range]
    rw [hghf b (by omega), hghf (b + 1) (by omega)]

/-- Witness for C5 at `f = g = id`, `nx = 2`, `ghdeg = 1`, `frac = 0`,
`sigma = 1`, `k = 1`, `b = 0`. -/
theorem calc_pgh_pGH_eq_witness :
    (0 < 2 ∧ 1 ≤ 1) ∧
      ((((pGH id id 2 1 0 1).getD 0 []).getD 0 0
          = (1/2) * (id (edge 2 0 1 (0+1)) - id (edge 2 0 1 0))) ∧
        (1 ≤ 1 → 1 ≤ 1 →
          (((pGH id id 2 1 0 1).getD 1 []).getD 0 0
            = hermeSeq (edge 2 0 1 0) (1-1) * id (edge 2 0 1 0)
              - hermeSeq (edge 2 0 1 (0+1)) (1-1) * id (edge 2 0 1 (0+1))))) :=
  ⟨⟨by norm_num, le_refl 1⟩, calc_pgh_pGH_eq id id 2 1 0 1 1 0 (by norm_num)⟩

end GpuSpecter